import Mathlib

/-!
Verification of the streaming fragment/merge model and the MongoDB document
loader of this repository.

Part A embeds the streaming chat-response accumulation model (Fragmenter,
Merger, fold driver).  The implementation of this mechanism is not among the
provided source files (only its unit tests are, in
`libs/core/tests/unit_tests/fake/test_fake_chat_model.py`), so the
definitions of Part A are modelled from the specification and checked
against the concrete expectations of that test file.

Part B embeds `libs/community/langchain_community/document_loaders/mongodb.py`,
which is among the provided source files and is translated directly.
-/

/-! ### Part A: data model for messages and fragments.

Modelled from the spec: a Message is an immutable value with a content
string, a role, an ordered mapping `additional_fields` whose values may be
nested mappings, scalars or strings, and an opaque identity token.  The
spec (section 9) asks for `additional_fields` to be a tagged variant tree
(leaf-string, leaf-scalar, mapping-of-variant); `Value` and `Fields` below
are that tree, with `Fields` an insertion-ordered association list. -/

inductive Role where
  | human : Role
  | ai : Role
  | system : Role
  | tool : Role
deriving DecidableEq, Repr

mutual

inductive Value where
  | str : String → Value
  | int : Int → Value
  | map : Fields → Value
deriving DecidableEq, Repr

inductive Fields where
  | nil : Fields
  | cons : String → Value → Fields → Fields
deriving DecidableEq, Repr

end

deriving instance DecidableEq for Except

/-- Ordered concatenation of two field mappings. -/
def Fields.append : Fields → Fields → Fields
  | .nil, g => g
  | .cons k v t, g => .cons k v (Fields.append t g)

/-- First value bound to a key, in insertion order. -/
def lookupField : Fields → String → Option Value
  | .nil, _ => none
  | .cons k v t, key => if k = key then some v else lookupField t key

/-- Remove the first binding of a key, keeping the order of the others. -/
def eraseField : Fields → String → Fields
  | .nil, _ => .nil
  | .cons k v t, key => if k = key then t else .cons k v (eraseField t key)

/-- Whether a key occurs in a field mapping. -/
def memKey : Fields → String → Bool
  | .nil, _ => false
  | .cons k _ t, key => k = key || memKey t key

mutual

/-- Well-formed value: every nested mapping binds each key at most once
(the invariant of an insertion-ordered dictionary). -/
def wfValue : Value → Bool
  | .str _ => true
  | .int _ => true
  | .map fs => wfFields fs

/-- Well-formed field mapping: keys pairwise distinct, values well-formed. -/
def wfFields : Fields → Bool
  | .nil => true
  | .cons k v t => !(memKey t k) && wfValue v && wfFields t

end

/-- Error taxonomy of the Merger, from the spec (section 7): a structural
type mismatch during field merge is `incompatible`; merging fragments of
different roles is `roleConflict`.  The spec recommends raising on a type
mismatch (silent precedence causes data loss), which is the choice taken
here. -/
inductive MergeErr where
  | incompatible : MergeErr
  | roleConflict : MergeErr
deriving DecidableEq, Repr

mutual

/-- Modelled from the spec (section 4.2): combine two values; strings
concatenate left-to-right, mappings merge recursively, any other
combination (including two scalar leaves) is a type-mismatch error. -/
def mergeValue : Value → Value → Except MergeErr Value
  | .str a, .str b => .ok (.str (a ++ b))
  | .map a, .map b => (mergeFields a b).map .map
  | _, _ => .error .incompatible

/-- Modelled from the spec (section 4.2): recursive structural merge of two
ordered mappings.  Keys present on only one side pass through unchanged;
keys present on both sides merge their values.  The result keeps the left
side's insertion order followed by the right side's new keys. -/
def mergeFields : Fields → Fields → Except MergeErr Fields
  | .nil, m2 => .ok m2
  | .cons k v t, m2 =>
    match lookupField m2 k with
    | none => (mergeFields t m2).map (.cons k v)
    | some v2 => do
        let mv ← mergeValue v v2
        let rest ← mergeFields t (eraseField m2 k)
        .ok (.cons k mv rest)

end

/-- Message (and Fragment, which is structurally identical but semantically
a piece of a Message under construction), from the spec (section 3). -/
structure Message where
  content : String
  role : Role
  additional_fields : Fields
  identity : Option Nat
deriving DecidableEq, Repr

/-- First-some choice used for identities: the left identity wins if it is
present, otherwise the right one is taken (spec section 4.2). -/
def idOr : Option Nat → Option Nat → Option Nat
  | some i, _ => some i
  | none, o => o

/-- Modelled from the spec (section 4.2): the Merger on whole fragments.
Role conflicts are an error; content concatenates; `additional_fields`
merge structurally; the result identity is the left identity when present,
else the right one. -/
def mergeMsg (a b : Message) : Except MergeErr Message :=
  if a.role = b.role then
    (mergeFields a.additional_fields b.additional_fields).map fun f =>
      { content := a.content ++ b.content
        role := a.role
        additional_fields := f
        identity := idOr a.identity b.identity }
  else .error .roleConflict

/-- Splitter that keeps separator characters (characters satisfying `p`) as
their own singleton tokens; `acc` is the current word accumulated in
reverse.  Concatenating the tokens restores the input exactly. -/
def splitKeepAux (p : Char → Bool) (acc : List Char) : List Char → List String
  | [] => if acc.isEmpty then [] else [String.mk acc.reverse]
  | c :: rest =>
    if p c then
      if acc.isEmpty then String.mk [c] :: splitKeepAux p [] rest
      else String.mk acc.reverse :: String.mk [c] :: splitKeepAux p [] rest
    else splitKeepAux p (c :: acc) rest

/-- Modelled from the spec (sections 4.1 and 8): whitespace-delimited word
splitting in which each separator character is emitted as its own token, so
that merge-by-concatenation reproduces exact spacing. -/
def splitWS (s : String) : List String :=
  splitKeepAux (fun c => c.isWhitespace) [] s.data

/-- Chunk policy splitting a string on commas, every comma becoming its own
chunk (the policy exercised by the nested function-call scenario of the
test file); an empty string yields one empty chunk. -/
def splitCommas (s : String) : List String :=
  match splitKeepAux (fun c => c = ',') [] s.data with
  | [] => [""]
  | l => l

/-- Trivial chunk policy: one chunk carrying the whole string. -/
def trivPolicy (s : String) : List String := [s]

/-- Concatenation of a token list. -/
def concatStr : List String → String
  | [] => ""
  | h :: t => h ++ concatStr t

/-- A caller-supplied chunk policy is admissible when it emits at least one
chunk and its chunks concatenate back to the input (spec section 4.1). -/
def PolicyOk (pol : String → List String) : Prop :=
  ∀ s, pol s ≠ [] ∧ concatStr (pol s) = s

mutual

/-- Modelled from the spec (sections 3 and 4.1): decompose one value into
the ordered list of partial values later merged back together.  A string
leaf is split by the chunk policy; a scalar leaf is one fragment; a
non-empty mapping fragments at string-leaf granularity, each piece wrapped
in its nested key path; an empty mapping is carried whole so that merging
reconstructs it. -/
def fragmentValue (pol : String → List String) : Value → List Value
  | .str s => (pol s).map .str
  | .int n => [.int n]
  | .map .nil => [.map .nil]
  | .map (.cons k v t) => (fragmentFields pol (.cons k v t)).map .map

/-- Modelled from the spec (section 4.1): one fragment per top-level key in
insertion order, with the value of the key decomposed by `fragmentValue`
and every piece wrapped as a singleton mapping under that key. -/
def fragmentFields (pol : String → List String) : Fields → List Fields
  | .nil => []
  | .cons k v t =>
    (fragmentValue pol v).map (fun p => Fields.cons k p .nil)
      ++ fragmentFields pol t

end

/-- Modelled from the spec (sections 2, 3 and 4.1): the Fragmenter.  The
content is split into word and separator tokens, each becoming a fragment
with empty fields; then every top-level key of `additional_fields` yields
its fragments in insertion order, each with empty content.  The identity
token `gid` is generated once per stream and copied onto every fragment;
the source message is never mutated. -/
def fragmenter (pol : String → List String) (gid : Nat) (m : Message) :
    List Message :=
  (splitWS m.content).map
    (fun tok =>
      { content := tok, role := m.role, additional_fields := .nil
        identity := some gid })
  ++ (fragmentFields pol m.additional_fields).map
    (fun fs =>
      { content := "", role := m.role, additional_fields := fs
        identity := some gid })

/-- Neutral accumulator for a fold over a fragment stream: empty content,
empty fields and no identity, acting as the identity element the spec
(section 4.2) prescribes for fold initialization. -/
def seedMsg (r : Role) : Message :=
  { content := "", role := r, additional_fields := .nil, identity := none }

/-- Modelled from the spec (section 4.3): the fold driver, a single pass of
the Merger over a fragment sequence with a single accumulator. -/
def foldFrags (seed : Message) (frags : List Message) :
    Except MergeErr Message :=
  List.foldlM mergeMsg seed frags

/-- Modelled from the spec (section 6): deliver one token notification,
carrying a fragment's content, to every registered handler store. -/
def notifyAll (stores : List (List String)) (tok : String) :
    List (List String) :=
  stores.map (fun st => st ++ [tok])

/-- Modelled from the spec (section 6): produce the fragments of a stream
in order, notifying every handler store once per fragment with that
fragment's content. -/
def runStream (frags : List Message) (stores : List (List String)) :
    List (List String) :=
  frags.foldl (fun hs f => notifyAll hs f.content) stores

/-- Concrete scenario A message: plain content, no additional fields. -/
def exMsgA : Message :=
  { content := "hello goodbye", role := .ai, additional_fields := .nil
    identity := none }

/-- Fold result of the scenario A fragment stream under identity token 5. -/
def resA5 : Message :=
  { content := "hello goodbye", role := .ai, additional_fields := .nil
    identity := some 5 }

/-- Concrete scenario B message: empty content, two scalar fields. -/
def exMsgB : Message :=
  { content := "", role := .ai
    additional_fields := .cons "foo" (.int 42) (.cons "bar" (.int 24) .nil)
    identity := none }

/-- Nested `function_call` payload of concrete scenario C. -/
def exFieldsC : Fields :=
  .cons "function_call"
    (.map (.cons "name" (.str "move_file")
      (.cons "arguments"
        (.str "\x7b\n  \"source_path\": \"foo\",\n  \"destination_path\": \"bar\"\n\x7d")
        .nil)))
    .nil

/-- Concrete scenario C message: empty content, nested function call. -/
def exMsgC : Message :=
  { content := "", role := .ai, additional_fields := exFieldsC
    identity := none }

/-- Second fragment of the scenario C stream: first `arguments` chunk. -/
def fragC1 : Message :=
  { content := "", role := .ai
    additional_fields := .cons "function_call"
      (.map (.cons "arguments" (.str "\x7b\n  \"source_path\": \"foo\"") .nil))
      .nil
    identity := some 0 }

/-- Third fragment of the scenario C stream: the comma chunk. -/
def fragC2 : Message :=
  { content := "", role := .ai
    additional_fields := .cons "function_call"
      (.map (.cons "arguments" (.str ",") .nil)) .nil
    identity := some 0 }

/-- Fourth fragment of the scenario C stream: last `arguments` chunk. -/
def fragC3 : Message :=
  { content := "", role := .ai
    additional_fields := .cons "function_call"
      (.map (.cons "arguments"
        (.str "\n  \"destination_path\": \"bar\"\n\x7d") .nil))
      .nil
    identity := some 0 }

/-! ### Part B: the MongoDB document loader.

Translated from `libs/community/langchain_community/document_loaders/mongodb.py`.
The external `motor` client (connection handling, query execution) is out of
scope per the spec; the records the store returns and the separately obtained
count are inputs of the model (`DbResponse`).  BSON-ish record values are the
tree `BVal`/`BFields` (string and integer leaves, nested string-keyed
documents), enough for every operation the loader performs on them. -/

mutual

inductive BVal where
  | str : String → BVal
  | int : Int → BVal
  | doc : BFields → BVal
deriving DecidableEq, Repr

inductive BFields where
  | nil : BFields
  | cons : String → BVal → BFields → BFields
deriving DecidableEq, Repr

end

/-- First value bound to a key of a record, like Python `dict.get`. -/
def bLookup : BFields → String → Option BVal
  | .nil, _ => none
  | .cons k v t, key => if k = key then some v else bLookup t key

/-- Python dictionary assignment `d[k] = v`: overwrite the existing binding
in place, else append the new binding. -/
def bInsert : BFields → String → BVal → BFields
  | .nil, k, v => .cons k v .nil
  | .cons k1 v1 t, k, v =>
    if k1 = k then .cons k1 v t else .cons k1 v1 (bInsert t k v)

/-- Values of a record in insertion order, like Python `dict.values()`. -/
def bValues : BFields → List BVal
  | .nil => []
  | .cons _ v t => v :: bValues t

/-- Splitter for `field.split(".")`: accumulating the current segment in
reverse and starting a new segment at each dot; like Python `str.split`,
the result always has one segment more than there are dots. -/
def splitDotAux (acc : List Char) : List Char → List String
  | [] => [String.mk acc.reverse]
  | c :: rest =>
    if c = '.' then String.mk acc.reverse :: splitDotAux [] rest
    else splitDotAux (c :: acc) rest

/-- Python `field.split(".")`. -/
def splitDot (s : String) : List String :=
  splitDotAux [] s.data

/-- The runtime error `_extract_fields` can raise: calling `.get` on a
value that is not a dictionary. -/
inductive PyErr where
  | attributeError : PyErr
deriving DecidableEq, Repr

/-- The walk of `_extract_fields` over one dot-delimited field path:
`value = value.get(key, default)` for each key, breaking out of the loop as
soon as the value equals the default `""`; the result is whatever value the
loop ends with.  Calling `.get` on a non-dictionary raises. -/
def walkPath (v : BVal) : List String → Except PyErr BVal
  | [] => .ok v
  | k :: rest =>
    match v with
    | .doc fs =>
      let v2 := (bLookup fs k).getD (.str "")
      if v2 = .str "" then .ok v2 else walkPath v2 rest
    | _ => .error .attributeError

/-- Translated from `MongodbLoader._extract_fields` (with the default
`""`): build the dictionary of extracted field values, keyed by the full
dot-delimited field path, in iteration order. -/
def extract_fields (document : BFields) (fields : List String) :
    Except PyErr BFields :=
  fields.foldlM
    (fun extracted field =>
      (walkPath (.doc document) (splitDot field)).map
        (fun v => bInsert extracted field v))
    .nil

/-- The loader state set up by `MongodbLoader.__init__` after validation.
The `motor` client, database and collection handles are opaque external
resources and are not carried in the model. -/
structure MongodbLoader where
  db_name : String
  collection_name : String
  filter_criteria : BFields
  field_names : Option (List String)
  metadata_names : List String
  include_db_collection_in_metadata : Bool
deriving DecidableEq, Repr

/-- Construction-time error of `MongodbLoader.__init__`. -/
inductive InitErr where
  | valueError : String → InitErr
deriving DecidableEq, Repr

/-- Translated from `MongodbLoader.__init__`: every missing (empty)
required identifier raises a `ValueError` before any attribute is set, so a
loader value exists only when validation passed.  Python `x or y` yields
`y` when `x` is `None` or empty, which is what the defaulting of
`filter_criteria` and `metadata_names` mirrors. -/
def MongodbLoader.init (connection_string db_name collection_name : String)
    (filter_criteria : Option BFields)
    (field_names metadata_names : Option (List String))
    (include_db_collection_in_metadata : Bool) :
    Except InitErr MongodbLoader :=
  if connection_string = "" then
    .error (.valueError "connection_string must be provided.")
  else if db_name = "" then
    .error (.valueError "db_name must be provided.")
  else if collection_name = "" then
    .error (.valueError "collection_name must be provided.")
  else
    .ok
      { db_name := db_name
        collection_name := collection_name
        filter_criteria := (filter_criteria.getD .nil)
        field_names := field_names
        metadata_names := (metadata_names.getD [])
        include_db_collection_in_metadata := include_db_collection_in_metadata }

/-- Translated from `MongodbLoader._construct_projection`: a projection
mapping each requested field to 1, or nothing when `field_names` is `None`
or empty (both are falsy in Python). -/
def MongodbLoader.construct_projection (l : MongodbLoader) :
    Option (List (String × Nat)) :=
  match l.field_names with
  | none => none
  | some fs => if fs.isEmpty then none else some (fs.map (fun f => (f, 1)))

mutual

/-- Python `str(value)` for the values a record may hold: a string renders
as itself, an integer in decimal, a dictionary brace-enclosed with
single-quoted keys (string escaping inside the rendering of nested
dictionaries is not modelled further). -/
def pyStr : BVal → String
  | .str s => s
  | .int n => toString n
  | .doc fs => "\x7b" ++ pyReprFields fs ++ "\x7d"

/-- Python `repr(value)` as used for dictionary members. -/
def pyRepr : BVal → String
  | .str s => "\x27" ++ s ++ "\x27"
  | .int n => toString n
  | .doc fs => "\x7b" ++ pyReprFields fs ++ "\x7d"

/-- Comma-separated `'key': repr(value)` entries of a dictionary. -/
def pyReprFields : BFields → String
  | .nil => ""
  | .cons k v .nil => "\x27" ++ k ++ "\x27: " ++ pyRepr v
  | .cons k v (.cons k2 v2 t) =>
    "\x27" ++ k ++ "\x27: " ++ pyRepr v ++ ", "
      ++ pyReprFields (.cons k2 v2 t)

end

/-- The generic document structure records map into. -/
structure Document where
  page_content : String
  metadata : BFields
deriving DecidableEq, Repr

/-- Python `" ".join(parts)`. -/
def joinSpace : List String → String
  | [] => ""
  | [x] => x
  | x :: y :: t => x ++ " " ++ joinSpace (y :: t)

/-- What the external document store returned for one load: the separately
obtained count (`count_documents`) and the records the cursor iteration
yielded (`find`). -/
structure DbResponse where
  count : Nat
  docs : List BFields
deriving DecidableEq, Repr

/-- The per-record body of the `async for` loop of `MongodbLoader.aload`:
extract metadata, optionally add database and collection names, extract the
requested fields and join their values into the page content. -/
def mkDocument (l : MongodbLoader) (record : BFields) :
    Except PyErr Document := do
  let metadata0 ← extract_fields record l.metadata_names
  let metadata :=
    if l.include_db_collection_in_metadata then
      bInsert (bInsert metadata0 "database" (.str l.db_name))
        "collection" (.str l.collection_name)
    else metadata0
  let fields ← extract_fields record (l.field_names.getD [])
  .ok
    { page_content := joinSpace ((bValues fields).map pyStr)
      metadata := metadata }

/-- Translated from `MongodbLoader.aload`: build one `Document` per record
the cursor yielded, then compare how many were built against the
separately obtained count; a mismatch is only flagged (the logged warning,
the Boolean of the result), never raised. -/
def MongodbLoader.aload (l : MongodbLoader) (db : DbResponse) :
    Except PyErr (List Document × Bool) := do
  let result ← db.docs.mapM (mkDocument l)
  .ok (result, decide (result.length ≠ db.count))

/-- Modelled from the spec: `asyncio.run` drives a coroutine to completion
on a fresh event loop and returns its result; the event loop itself is not
modelled, so running a finished deterministic computation is the identity. -/
def asyncioRun (x : α) : α := x

/-- Translated from `MongodbLoader.load`: synchronous loading delegates to
`aload` via `asyncio.run`. -/
def MongodbLoader.load (l : MongodbLoader) (db : DbResponse) :
    Except PyErr (List Document × Bool) :=
  asyncioRun (l.aload db)

/-- Example loader configuration for concrete checks. -/
def exLoader : MongodbLoader :=
  { db_name := "db", collection_name := "col", filter_criteria := .nil
    field_names := some ["text"], metadata_names := ["author"]
    include_db_collection_in_metadata := true }

/-- Example record as returned by the document store. -/
def exRecord : BFields :=
  .cons "text" (.str "hello world") (.cons "author" (.str "ada") .nil)

/-- Example database response whose separately obtained count exceeds the
number of records iteration yielded. -/
def exDb : DbResponse := { count := 2, docs := [exRecord] }

/-- The document built from `exRecord` by `exLoader`. -/
def exDoc : Document :=
  { page_content := "hello world"
    metadata := .cons "author" (.str "ada")
      (.cons "database" (.str "db") (.cons "collection" (.str "col") .nil)) }

/-! ### Basic lemmas about field mappings and merging. -/

theorem Fields.append_nil : ∀ fs : Fields, Fields.append fs .nil = fs
  | .nil => rfl
  | .cons k v t => by rw [Fields.append, Fields.append_nil t]

theorem Fields.append_assoc :
    ∀ a b c : Fields,
      Fields.append (Fields.append a b) c = Fields.append a (Fields.append b c)
  | .nil, _, _ => rfl
  | .cons k v t, b, c => by
    rw [Fields.append, Fields.append, Fields.append, Fields.append_assoc t]

theorem memKey_append :
    ∀ (a : Fields) (b : Fields) (k : String),
      memKey (Fields.append a b) k = (memKey a k || memKey b k)
  | .nil, _, _ => rfl
  | .cons k1 v t, b, k => by
    rw [Fields.append, memKey, memKey, memKey_append t, Bool.or_assoc]

theorem mergeFields_nil_left (m : Fields) : mergeFields .nil m = .ok m := rfl

theorem mergeFields_nil_right : ∀ m : Fields, mergeFields m .nil = .ok m
  | .nil => rfl
  | .cons k v t => by
    rw [mergeFields]
    simp only [lookupField, mergeFields_nil_right t, Except.map]

theorem concatStr_append (l1 l2 : List String) :
    concatStr (l1 ++ l2) = concatStr l1 ++ concatStr l2 := by
  induction l1 with
  | nil => simp [concatStr, String.empty_append]
  | cons h t ih => simp [concatStr, ih, String.append_assoc]

theorem idOr_assoc (a b c : Option Nat) :
    idOr (idOr a b) c = idOr a (idOr b c) := by
  cases a <;> cases b <;> rfl

theorem exc_bind_ok {E A B : Type} (a : A) (f : A → Except E B) :
    (Except.ok a >>= f) = f a := rfl

theorem exc_bind_err {E A B : Type} (e : E) (f : A → Except E B) :
    ((Except.error e : Except E A) >>= f) = .error e := rfl

theorem exc_map_ok {E A B : Type} (a : A) (f : A → B) :
    (Except.ok a : Except E A).map f = .ok (f a) := rfl

theorem exc_map_err {E A B : Type} (e : E) (f : A → B) :
    (Except.error e : Except E A).map f = (.error e : Except E B) := rfl

/-! ### Reconstruction of content from split tokens. -/

theorem concatStr_splitKeepAux (p : Char → Bool) :
    ∀ (cs : List Char) (acc : List Char),
      (concatStr (splitKeepAux p acc cs)).data = acc.reverse ++ cs := by
  intro cs
  induction cs with
  | nil =>
    intro acc
    by_cases h : acc.isEmpty
    · rw [splitKeepAux, if_pos h]
      rw [List.isEmpty_iff] at h
      subst h
      rfl
    · rw [splitKeepAux, if_neg h]
      simp [concatStr, String.data_append, String.append_empty]
  | cons c rest ih =>
    intro acc
    by_cases hp : p c
    · by_cases h : acc.isEmpty
      · rw [splitKeepAux, if_pos hp, if_pos h]
        rw [List.isEmpty_iff] at h
        subst h
        simp [concatStr, String.data_append, ih]
      · rw [splitKeepAux, if_pos hp, if_neg h]
        simp [concatStr, String.data_append, ih]
    · rw [splitKeepAux, if_neg hp]
      rw [ih (c :: acc)]
      simp

theorem concatStr_splitWS (s : String) : concatStr (splitWS s) = s := by
  apply String.ext
  rw [splitWS, concatStr_splitKeepAux]
  rfl

theorem trivPolicy_ok : PolicyOk trivPolicy := by
  intro s
  refine ⟨by simp [trivPolicy], ?_⟩
  simp [trivPolicy, concatStr, String.append_empty]

/-! ### Folding fragment chunks back into one value. -/

theorem fold_str_chunks :
    ∀ (cs : List String) (c : String),
      List.foldlM mergeValue (Value.str c) (cs.map Value.str)
        = .ok (.str (c ++ concatStr cs)) := by
  intro cs
  induction cs with
  | nil =>
    intro c
    rw [List.map_nil, List.foldlM_nil, concatStr, String.append_empty]
    rfl
  | cons d ds ih =>
    intro c
    rw [List.map_cons, List.foldlM_cons, mergeValue, exc_bind_ok, ih,
      concatStr, String.append_assoc]

theorem fold_map_wrap :
    ∀ (fl : List Fields) (f0 : Fields),
      List.foldlM mergeValue (Value.map f0) (fl.map Value.map)
        = (List.foldlM mergeFields f0 fl).map Value.map := by
  intro fl
  induction fl with
  | nil => intro f0; rfl
  | cons g gs ih =>
    intro f0
    rw [List.map_cons, List.foldlM_cons, List.foldlM_cons, mergeValue]
    cases h : mergeFields f0 g with
    | ok r => rw [exc_map_ok, exc_bind_ok, exc_bind_ok, ih]
    | error e => rw [exc_map_err, exc_bind_err, exc_bind_err, exc_map_err]

theorem mergeFields_fresh_single :
    ∀ (acc : Fields) (k : String) (p : Value), memKey acc k = false →
      mergeFields acc (.cons k p .nil)
        = .ok (Fields.append acc (.cons k p .nil))
  | .nil, k, p, _ => by rw [mergeFields_nil_left, Fields.append]
  | .cons k1 v1 t, k, p, h => by
    rw [memKey, Bool.or_eq_false_iff] at h
    obtain ⟨hk, ht⟩ := h
    rw [mergeFields, lookupField,
      if_neg (fun he => by simp [he] at hk), lookupField,
      mergeFields_fresh_single t k p ht, exc_map_ok, Fields.append]

theorem mergeFields_append_single :
    ∀ (acc : Fields) (k : String) (q p : Value), memKey acc k = false →
      mergeFields (Fields.append acc (.cons k q .nil)) (.cons k p .nil)
        = (mergeValue q p).map (fun r => Fields.append acc (.cons k r .nil))
  | .nil, k, q, p, _ => by
    cases h : mergeValue q p with
    | ok r =>
      simp [Fields.append, mergeFields, lookupField, eraseField, h,
        exc_bind_ok, exc_map_ok]
    | error e =>
      simp [Fields.append, mergeFields, lookupField, eraseField, h,
        exc_bind_err, exc_map_err]
  | .cons k1 v1 t, k, q, p, h => by
    rw [memKey, Bool.or_eq_false_iff] at h
    obtain ⟨hk, ht⟩ := h
    rw [Fields.append, mergeFields, lookupField,
      if_neg (fun he => by simp [he] at hk), lookupField,
      mergeFields_append_single t k q p ht]
    cases mergeValue q p with
    | ok r => rw [exc_map_ok, exc_map_ok, exc_map_ok, Fields.append]
    | error e => rw [exc_map_err, exc_map_err, exc_map_err]

theorem foldlM_merge_chunks :
    ∀ (ps : List Value) (acc : Fields) (k : String) (q : Value),
      memKey acc k = false →
      List.foldlM mergeFields (Fields.append acc (.cons k q .nil))
          (ps.map (fun p => Fields.cons k p .nil))
        = (List.foldlM mergeValue q ps).map
            (fun r => Fields.append acc (.cons k r .nil)) := by
  intro ps
  induction ps with
  | nil => intro acc k q _; rfl
  | cons p ps' ih =>
    intro acc k q hmem
    rw [List.map_cons, List.foldlM_cons, List.foldlM_cons,
      mergeFields_append_single acc k q p hmem]
    cases mergeValue q p with
    | ok r => rw [exc_map_ok, exc_bind_ok, exc_bind_ok, ih acc k r hmem]
    | error e => rw [exc_map_err, exc_bind_err, exc_bind_err, exc_map_err]

mutual

theorem rv_roundtrip (pol : String → List String) (hpol : PolicyOk pol) :
    ∀ v : Value, wfValue v = true →
      ∃ p ps, fragmentValue pol v = p :: ps
        ∧ List.foldlM mergeValue p ps = .ok v
  | .str s, _ => by
    obtain ⟨hne, hcat⟩ := hpol s
    obtain ⟨c, cs, hsplit⟩ := List.exists_cons_of_ne_nil hne
    refine ⟨.str c, cs.map .str, ?_, ?_⟩
    · rw [fragmentValue, hsplit, List.map_cons]
    · rw [fold_str_chunks]
      rw [hsplit, concatStr] at hcat
      rw [hcat]
  | .int n, _ => ⟨.int n, [], rfl, rfl⟩
  | .map .nil, _ => ⟨.map .nil, [], rfl, rfl⟩
  | .map (.cons k v t), hwf => by
    rw [wfValue] at hwf
    have hv : wfValue v = true := by
      have h2 := hwf
      rw [wfFields, Bool.and_eq_true, Bool.and_eq_true] at h2
      exact h2.1.2
    obtain ⟨p, ps, hfrag, _⟩ := rv_roundtrip pol hpol v hv
    have hL : fragmentFields pol (.cons k v t)
        = Fields.cons k p .nil
          :: (ps.map (fun q => Fields.cons k q .nil)
              ++ fragmentFields pol t) := by
      rw [fragmentFields, hfrag, List.map_cons, List.cons_append]
    have hfold := rf_roundtrip pol hpol (.cons k v t) hwf .nil
      (fun _ _ => rfl)
    rw [hL, List.foldlM_cons, mergeFields_nil_left, exc_bind_ok] at hfold
    refine ⟨.map (.cons k p .nil),
      (ps.map (fun q => Fields.cons k q .nil)
        ++ fragmentFields pol t).map Value.map, ?_, ?_⟩
    · rw [fragmentValue, hL, List.map_cons]
    · rw [fold_map_wrap, hfold, exc_map_ok]
      rfl

theorem rf_roundtrip (pol : String → List String) (hpol : PolicyOk pol) :
    ∀ fs : Fields, wfFields fs = true →
      ∀ acc : Fields, (∀ k, memKey fs k = true → memKey acc k = false) →
        List.foldlM mergeFields acc (fragmentFields pol fs)
          = .ok (Fields.append acc fs)
  | .nil, _, acc, _ => by rw [fragmentFields, List.foldlM_nil, Fields.append_nil]; rfl
  | .cons k v t, hwf, acc, hdisj => by
    rw [wfFields, Bool.and_eq_true, Bool.and_eq_true] at hwf
    obtain ⟨⟨hmem, hv⟩, ht⟩ := hwf
    obtain ⟨p, ps, hfrag, hfold⟩ := rv_roundtrip pol hpol v hv
    have hacck : memKey acc k = false := hdisj k (by rw [memKey]; simp)
    rw [fragmentFields, hfrag, List.map_cons, List.cons_append,
      List.foldlM_cons, mergeFields_fresh_single acc k p hacck, exc_bind_ok,
      List.foldlM_append, foldlM_merge_chunks ps acc k p hacck, hfold,
      exc_map_ok, exc_bind_ok]
    have hdisj2 : ∀ k2, memKey t k2 = true
        → memKey (Fields.append acc (.cons k v .nil)) k2 = false := by
      intro k2 hk2
      rw [memKey_append, Bool.or_eq_false_iff]
      refine ⟨hdisj k2 (by rw [memKey, hk2]; simp), ?_⟩
      rw [memKey, memKey]
      have : (k = k2) = False := by
        by_contra hne
        simp at hne
        subst hne
        rw [hk2] at hmem
        simp at hmem
      simp [this]
    rw [rf_roundtrip pol hpol t ht _ hdisj2, Fields.append_assoc]
    rfl

end

/-! ### Folding a whole fragment stream, component by component. -/

theorem foldlM_mergeMsg_eq :
    ∀ (frags : List Message) (acc : Message),
      (∀ f ∈ frags, f.role = acc.role) →
      List.foldlM mergeMsg acc frags
        = (List.foldlM mergeFields acc.additional_fields
              (frags.map (fun f => f.additional_fields))).map
            (fun F =>
              { content := acc.content ++ concatStr (frags.map (fun f => f.content))
                role := acc.role
                additional_fields := F
                identity :=
                  List.foldl idOr acc.identity
                    (frags.map (fun f => f.identity)) }) := by
  intro frags
  induction frags with
  | nil =>
    intro acc _
    rw [List.map_nil, List.map_nil, List.map_nil, List.foldlM_nil,
      List.foldlM_nil, List.foldl_nil, concatStr, String.append_empty]
    rfl
  | cons f fs ih =>
    intro acc hrole
    have hf : f.role = acc.role := hrole f (by simp)
    rw [List.map_cons, List.map_cons, List.map_cons, List.foldlM_cons,
      List.foldlM_cons, List.foldl_cons, concatStr]
    rw [mergeMsg, if_pos hf.symm]
    cases h : mergeFields acc.additional_fields f.additional_fields with
    | ok F1 =>
      rw [exc_map_ok, exc_bind_ok, exc_bind_ok]
      rw [ih { content := acc.content ++ f.content, role := acc.role,
               additional_fields := F1,
               identity := idOr acc.identity f.identity }
           (fun g hg => hrole g (by simp [hg]))]
      congr 1
      funext F
      simp [String.append_assoc]
    | error e =>
      rw [exc_map_err, exc_bind_err, exc_bind_err, exc_map_err]

theorem foldlM_mergeFields_skip_nils :
    ∀ (toks : List String) (acc : Fields) (l2 : List Fields),
      List.foldlM mergeFields acc
          ((toks.map (fun _ => Fields.nil)) ++ l2)
        = List.foldlM mergeFields acc l2 := by
  intro toks
  induction toks with
  | nil => intro acc l2; rfl
  | cons x xs ih =>
    intro acc l2
    rw [List.map_cons, List.cons_append, List.foldlM_cons,
      mergeFields_nil_right, exc_bind_ok, ih]

theorem concatStr_blank :
    ∀ (l : List Fields), concatStr (l.map (fun _ => "")) = "" := by
  intro l
  induction l with
  | nil => rfl
  | cons x xs ih => rw [List.map_cons, concatStr, ih]; rfl

theorem foldl_idOr_const (gid : Nat) :
    ∀ (l : List (Option Nat)), (∀ x ∈ l, x = some gid) →
      List.foldl idOr (some gid) l = some gid := by
  intro l
  induction l with
  | nil => intro _; rfl
  | cons x xs ih =>
    intro h
    rw [List.foldl_cons, h x (by simp), idOr, ih (fun y hy => h y (by simp [hy]))]

/-- C1 (round-trip): for every Message and every admissible chunk policy,
folding all fragments produced by the Fragmenter, in emission order and
starting from the neutral accumulator, succeeds and yields a Message whose
content, role and additional_fields equal the original ones (the identity
is excluded from this equality: the original message had none). -/
theorem frag_roundtrip (pol : String → List String) (gid : Nat) (m : Message)
    (hpol : PolicyOk pol) (hwf : wfFields m.additional_fields = true) :
    ∃ res, foldFrags (seedMsg m.role) (fragmenter pol gid m) = .ok res
      ∧ res.content = m.content ∧ res.role = m.role
      ∧ res.additional_fields = m.additional_fields := by
  have hroles : ∀ f ∈ fragmenter pol gid m, f.role = (seedMsg m.role).role := by
    intro f hf
    rw [fragmenter] at hf
    rcases List.mem_append.mp hf with h | h <;>
      · obtain ⟨x, _, hx⟩ := List.mem_map.mp h
        rw [← hx]
        rfl
  rw [foldFrags, foldlM_mergeMsg_eq (fragmenter pol gid m) (seedMsg m.role) hroles]
  have hfieldsmap : (fragmenter pol gid m).map (fun f => f.additional_fields)
      = ((splitWS m.content).map (fun _ => Fields.nil))
        ++ fragmentFields pol m.additional_fields := by
    rw [fragmenter, List.map_append, List.map_map, List.map_map]
    congr 1
    exact List.map_id'' (fun x => rfl) _
  have hseed : (seedMsg m.role).additional_fields = Fields.nil := rfl
  rw [hfieldsmap, hseed, foldlM_mergeFields_skip_nils,
    rf_roundtrip pol hpol m.additional_fields hwf Fields.nil (fun _ _ => rfl),
    exc_map_ok]
  refine ⟨_, rfl, ?_, rfl, rfl⟩
  have hcontmap : (fragmenter pol gid m).map (fun f => f.content)
      = splitWS m.content
        ++ (fragmentFields pol m.additional_fields).map (fun _ => "") := by
    rw [fragmenter, List.map_append, List.map_map, List.map_map]
    congr 1
    exact List.map_id'' (fun x => rfl) _
  show (seedMsg m.role).content
      ++ concatStr ((fragmenter pol gid m).map (fun f => f.content)) = _
  rw [hcontmap, concatStr_append, concatStr_splitWS, concatStr_blank,
    String.append_empty]
  rfl

/-- Closed witness for the round-trip claim, at the nested function-call
message with the trivial chunk policy. -/
theorem frag_roundtrip_wit :
    PolicyOk trivPolicy ∧ wfFields exMsgC.additional_fields = true
      ∧ ∃ res, foldFrags (seedMsg exMsgC.role) (fragmenter trivPolicy 3 exMsgC)
          = .ok res
        ∧ res.content = exMsgC.content ∧ res.role = exMsgC.role
        ∧ res.additional_fields = exMsgC.additional_fields :=
  ⟨trivPolicy_ok, by decide,
    frag_roundtrip trivPolicy 3 exMsgC trivPolicy_ok (by decide)⟩

/-! ### Associativity of the Merger on ordered mappings.

The lemmas below relate lookup and erase to a successful merge, and then
establish that the two ways of folding three operands agree. -/

theorem bind_ok_iff {E A B : Type} (x : Except E A) (f : A → Except E B)
    (r : B) : (x >>= f) = .ok r ↔ ∃ a, x = .ok a ∧ f a = .ok r := by
  cases x with
  | ok a => simp [exc_bind_ok]
  | error e => simp [exc_bind_err]

theorem map_ok_iff {E A B : Type} (x : Except E A) (g : A → B) (r : B) :
    x.map g = .ok r ↔ ∃ a, x = .ok a ∧ g a = r := by
  cases x with
  | ok a => simp [exc_map_ok]
  | error e => simp [exc_map_err]

theorem mergeFields_cons_none_ok {k : String} {v : Value} {t m2 r : Fields}
    (hlk : lookupField m2 k = none)
    (h : mergeFields (.cons k v t) m2 = .ok r) :
    ∃ r1, mergeFields t m2 = .ok r1 ∧ r = .cons k v r1 := by
  rw [mergeFields, hlk] at h
  rw [map_ok_iff] at h
  obtain ⟨r1, h1, h2⟩ := h
  exact ⟨r1, h1, h2.symm⟩

theorem mergeFields_cons_some_ok {k : String} {v v2 : Value} {t m2 r : Fields}
    (hlk : lookupField m2 k = some v2)
    (h : mergeFields (.cons k v t) m2 = .ok r) :
    ∃ mv rest, mergeValue v v2 = .ok mv
      ∧ mergeFields t (eraseField m2 k) = .ok rest
      ∧ r = .cons k mv rest := by
  rw [mergeFields, hlk] at h
  rw [bind_ok_iff] at h
  obtain ⟨mv, hmv, h⟩ := h
  rw [bind_ok_iff] at h
  obtain ⟨rest, hrest, h⟩ := h
  rw [Except.ok.injEq] at h
  exact ⟨mv, rest, hmv, hrest, h.symm⟩

theorem mergeFields_cons_none_mk {k : String} {v : Value} {t m2 r1 : Fields}
    (hlk : lookupField m2 k = none) (h1 : mergeFields t m2 = .ok r1) :
    mergeFields (.cons k v t) m2 = .ok (.cons k v r1) := by
  rw [mergeFields, hlk, h1, exc_map_ok]

theorem mergeFields_cons_some_mk {k : String} {v v2 mv : Value}
    {t m2 rest : Fields}
    (hlk : lookupField m2 k = some v2) (hmv : mergeValue v v2 = .ok mv)
    (hrest : mergeFields t (eraseField m2 k) = .ok rest) :
    mergeFields (.cons k v t) m2 = .ok (.cons k mv rest) := by
  simp only [mergeFields, hlk]
  rw [hmv, exc_bind_ok, hrest, exc_bind_ok]

theorem lookupField_eraseField_ne :
    ∀ (m : Fields) (k k2 : String), k ≠ k2 →
      lookupField (eraseField m k2) k = lookupField m k
  | .nil, _, _, _ => rfl
  | .cons k1 v t, k, k2, hne => by
    rw [eraseField, lookupField]
    by_cases h12 : k1 = k2
    · rw [if_pos h12, if_neg (fun he => hne (by rw [← he, h12]))]
    · rw [if_neg h12, lookupField]
      by_cases h1k : k1 = k
      · rw [if_pos h1k, if_pos h1k]
      · rw [if_neg h1k, if_neg h1k, lookupField_eraseField_ne t k k2 hne]

theorem eraseField_comm :
    ∀ (m : Fields) (a b : String), a ≠ b →
      eraseField (eraseField m a) b = eraseField (eraseField m b) a
  | .nil, _, _, _ => rfl
  | .cons k v t, a, b, hab => by
    by_cases hka : k = a
    · rw [eraseField, if_pos hka, eraseField,
        if_neg (fun he => hab (by rw [← hka, he])), eraseField, if_pos hka]
    · rw [eraseField, if_neg hka]
      by_cases hkb : k = b
      · rw [eraseField, if_pos hkb, eraseField, if_pos hkb]
      · rw [eraseField, if_neg hkb, eraseField, if_neg hkb, eraseField,
          if_neg hka, eraseField_comm t a b hab]

theorem exc_err_ne_ok {E A : Type} {e : E} {a : A}
    (h : (Except.error e : Except E A) = .ok a) : False :=
  Except.noConfusion h

theorem mergeValue_ok_shape {a b x : Value} (h : mergeValue a b = .ok x) :
    (∃ sa sb, a = .str sa ∧ b = .str sb ∧ x = .str (sa ++ sb))
      ∨ (∃ A B X, a = .map A ∧ b = .map B ∧ x = .map X
          ∧ mergeFields A B = .ok X) := by
  cases a with
  | str sa =>
    cases b with
    | str sb =>
      rw [mergeValue, Except.ok.injEq] at h
      exact Or.inl ⟨sa, sb, rfl, rfl, h.symm⟩
    | int n => exact (exc_err_ne_ok h).elim
    | map B => exact (exc_err_ne_ok h).elim
  | int n => cases b <;> exact (exc_err_ne_ok h).elim
  | map A =>
    cases b with
    | str sb => exact (exc_err_ne_ok h).elim
    | int n => exact (exc_err_ne_ok h).elim
    | map B =>
      rw [mergeValue, map_ok_iff] at h
      obtain ⟨X, hX, hx⟩ := h
      exact Or.inr ⟨A, B, X, rfl, rfl, hx.symm, hX⟩

theorem lookup_merge_none :
    ∀ (m1 m2 : Fields) (k : String) (r : Fields),
      lookupField m1 k = none → mergeFields m1 m2 = .ok r →
      lookupField r k = lookupField m2 k
  | .nil, m2, k, r, _, hm => by
    rw [mergeFields_nil_left, Except.ok.injEq] at hm
    rw [← hm]
  | .cons k1 v t, m2, k, r, h1, hm => by
    rw [lookupField] at h1
    by_cases hk : k1 = k
    · rw [if_pos hk] at h1
      exact absurd h1 (by simp)
    · rw [if_neg hk] at h1
      cases hlk : lookupField m2 k1 with
      | none =>
        obtain ⟨r1, hr1, hr⟩ := mergeFields_cons_none_ok hlk hm
        subst hr
        rw [lookupField, if_neg hk]
        exact lookup_merge_none t m2 k r1 h1 hr1
      | some v2 =>
        obtain ⟨mv, rest, _, hrest, hr⟩ := mergeFields_cons_some_ok hlk hm
        subst hr
        rw [lookupField, if_neg hk]
        rw [lookup_merge_none t (eraseField m2 k1) k rest h1 hrest]
        exact lookupField_eraseField_ne m2 k k1 (fun he => hk he.symm)

theorem lookup_merge_some_none :
    ∀ (m1 m2 : Fields) (k : String) (v1 : Value) (r : Fields),
      lookupField m1 k = some v1 → lookupField m2 k = none →
      mergeFields m1 m2 = .ok r → lookupField r k = some v1
  | .nil, _, k, v1, _, h1, _, _ => by
    rw [lookupField] at h1
    exact absurd h1 (by simp)
  | .cons k1 v t, m2, k, v1, r, h1, h2, hm => by
    rw [lookupField] at h1
    by_cases hk : k1 = k
    · rw [if_pos hk] at h1
      obtain ⟨r1, _, hr⟩ := mergeFields_cons_none_ok (by rw [hk]; exact h2) hm
      subst hr
      rw [lookupField, if_pos hk, h1]
    · rw [if_neg hk] at h1
      cases hlk : lookupField m2 k1 with
      | none =>
        obtain ⟨r1, hr1, hr⟩ := mergeFields_cons_none_ok hlk hm
        subst hr
        rw [lookupField, if_neg hk]
        exact lookup_merge_some_none t m2 k v1 r1 h1 h2 hr1
      | some v2 =>
        obtain ⟨mv, rest, _, hrest, hr⟩ := mergeFields_cons_some_ok hlk hm
        subst hr
        rw [lookupField, if_neg hk]
        refine lookup_merge_some_none t (eraseField m2 k1) k v1 rest h1 ?_ hrest
        rw [lookupField_eraseField_ne m2 k k1 (fun he => hk he.symm)]
        exact h2

theorem lookup_merge_some_some :
    ∀ (m1 m2 : Fields) (k : String) (v1 v2 : Value) (r : Fields),
      lookupField m1 k = some v1 → lookupField m2 k = some v2 →
      mergeFields m1 m2 = .ok r →
      ∃ w, mergeValue v1 v2 = .ok w ∧ lookupField r k = some w
  | .nil, _, k, v1, _, _, h1, _, _ => by
    rw [lookupField] at h1
    exact absurd h1 (by simp)
  | .cons k1 v t, m2, k, v1, v2, r, h1, h2, hm => by
    rw [lookupField] at h1
    by_cases hk : k1 = k
    · rw [if_pos hk] at h1
      rw [Option.some.injEq] at h1
      obtain ⟨mv, rest, hmv, _, hr⟩ :=
        mergeFields_cons_some_ok (by rw [hk]; exact h2) hm
      subst hr
      refine ⟨mv, by rw [h1] at hmv; exact hmv, ?_⟩
      rw [lookupField, if_pos hk]
    · rw [if_neg hk] at h1
      cases hlk : lookupField m2 k1 with
      | none =>
        obtain ⟨r1, hr1, hr⟩ := mergeFields_cons_none_ok hlk hm
        subst hr
        obtain ⟨w, hw, hlw⟩ :=
          lookup_merge_some_some t m2 k v1 v2 r1 h1 h2 hr1
        refine ⟨w, hw, ?_⟩
        rw [lookupField, if_neg hk]
        exact hlw
      | some v2x =>
        obtain ⟨mv, rest, _, hrest, hr⟩ := mergeFields_cons_some_ok hlk hm
        subst hr
        obtain ⟨w, hw, hlw⟩ :=
          lookup_merge_some_some t (eraseField m2 k1) k v1 v2 rest h1
            (by rw [lookupField_eraseField_ne m2 k k1
                (fun he => hk he.symm)]; exact h2)
            hrest
        refine ⟨w, hw, ?_⟩
        rw [lookupField, if_neg hk]
        exact hlw

theorem merge_erase_right :
    ∀ (m1 m2 : Fields) (k : String) (r : Fields),
      lookupField m1 k = none → mergeFields m1 m2 = .ok r →
      mergeFields m1 (eraseField m2 k) = .ok (eraseField r k)
  | .nil, m2, k, r, _, hm => by
    rw [mergeFields_nil_left, Except.ok.injEq] at hm
    subst hm
    exact mergeFields_nil_left _
  | .cons k1 v t, m2, k, r, h1, hm => by
    rw [lookupField] at h1
    by_cases hk : k1 = k
    · rw [if_pos hk] at h1
      exact absurd h1 (by simp)
    · rw [if_neg hk] at h1
      have hkk1 : k ≠ k1 := fun he => hk he.symm
      cases hlk : lookupField m2 k1 with
      | none =>
        obtain ⟨r1, hr1, hr⟩ := mergeFields_cons_none_ok hlk hm
        subst hr
        rw [eraseField, if_neg hk]
        refine mergeFields_cons_none_mk ?_
          (merge_erase_right t m2 k r1 h1 hr1)
        rw [lookupField_eraseField_ne m2 k1 k hk]
        exact hlk
      | some v2 =>
        obtain ⟨mv, rest, hmv, hrest, hr⟩ := mergeFields_cons_some_ok hlk hm
        subst hr
        rw [eraseField, if_neg hk]
        refine mergeFields_cons_some_mk ?_ hmv ?_
        · rw [lookupField_eraseField_ne m2 k1 k hk]
          exact hlk
        · rw [eraseField_comm m2 k k1 hkk1]
          exact merge_erase_right t (eraseField m2 k1) k rest h1 hrest

theorem merge_erase_right_exists :
    ∀ (m1 m2 : Fields) (k : String) (y : Fields),
      lookupField m1 k = none →
      mergeFields m1 (eraseField m2 k) = .ok y →
      ∃ r, mergeFields m1 m2 = .ok r ∧ eraseField r k = y
        ∧ lookupField r k = lookupField m2 k
  | .nil, m2, k, y, _, hm => by
    rw [mergeFields_nil_left, Except.ok.injEq] at hm
    exact ⟨m2, mergeFields_nil_left m2, hm, rfl⟩
  | .cons k1 v t, m2, k, y, h1, hm => by
    rw [lookupField] at h1
    by_cases hk : k1 = k
    · rw [if_pos hk] at h1
      exact absurd h1 (by simp)
    · rw [if_neg hk] at h1
      have hkk1 : k ≠ k1 := fun he => hk he.symm
      cases hlk : lookupField m2 k1 with
      | none =>
        obtain ⟨y1, hy1, hy⟩ := mergeFields_cons_none_ok
          (by rw [lookupField_eraseField_ne m2 k1 k hk]; exact hlk) hm
        subst hy
        obtain ⟨r1, hr1, her, hlr⟩ := merge_erase_right_exists t m2 k y1 h1 hy1
        refine ⟨.cons k1 v r1, mergeFields_cons_none_mk hlk hr1, ?_, ?_⟩
        · rw [eraseField, if_neg hk, her]
        · rw [lookupField, if_neg hk]
          exact hlr
      | some v2 =>
        obtain ⟨mv, y1, hmv, hy1, hy⟩ := mergeFields_cons_some_ok
          (by rw [lookupField_eraseField_ne m2 k1 k hk]; exact hlk) hm
        subst hy
        rw [eraseField_comm m2 k k1 hkk1] at hy1
        obtain ⟨rest, hrest, her, hlr⟩ :=
          merge_erase_right_exists t (eraseField m2 k1) k y1 h1 hy1
        refine ⟨.cons k1 mv rest, mergeFields_cons_some_mk hlk hmv hrest,
          ?_, ?_⟩
        · rw [eraseField, if_neg hk, her]
        · rw [lookupField, if_neg hk, hlr,
            lookupField_eraseField_ne m2 k k1 hkk1]

theorem merge_erase_left :
    ∀ (m1 m2 : Fields) (k : String) (vb : Value) (r : Fields),
      lookupField m1 k = some vb → lookupField m2 k = none →
      mergeFields m1 m2 = .ok r →
      mergeFields (eraseField m1 k) m2 = .ok (eraseField r k)
  | .nil, _, k, vb, _, h1, _, _ => by
    rw [lookupField] at h1
    exact absurd h1 (by simp)
  | .cons k1 v t, m2, k, vb, r, h1, h2, hm => by
    rw [lookupField] at h1
    by_cases hk : k1 = k
    · obtain ⟨r1, hr1, hr⟩ := mergeFields_cons_none_ok
        (by rw [hk]; exact h2) hm
      subst hr
      rw [eraseField, if_pos hk, eraseField, if_pos hk]
      exact hr1
    · rw [if_neg hk] at h1
      have hkk1 : k ≠ k1 := fun he => hk he.symm
      cases hlk : lookupField m2 k1 with
      | none =>
        obtain ⟨r1, hr1, hr⟩ := mergeFields_cons_none_ok hlk hm
        subst hr
        rw [eraseField, if_neg hk, eraseField, if_neg hk]
        exact mergeFields_cons_none_mk hlk
          (merge_erase_left t m2 k vb r1 h1 h2 hr1)
      | some v2 =>
        obtain ⟨mv, rest, hmv, hrest, hr⟩ := mergeFields_cons_some_ok hlk hm
        subst hr
        rw [eraseField, if_neg hk, eraseField, if_neg hk]
        refine mergeFields_cons_some_mk hlk hmv
          (merge_erase_left t (eraseField m2 k1) k vb rest h1 ?_ hrest)
        rw [lookupField_eraseField_ne m2 k k1 hkk1]
        exact h2

theorem merge_erase_left_exists :
    ∀ (m1 m2 : Fields) (k : String) (vb : Value) (y : Fields),
      lookupField m1 k = some vb → lookupField m2 k = none →
      mergeFields (eraseField m1 k) m2 = .ok y →
      ∃ r, mergeFields m1 m2 = .ok r ∧ eraseField r k = y
  | .nil, _, k, vb, _, h1, _, _ => by
    rw [lookupField] at h1
    exact absurd h1 (by simp)
  | .cons k1 v t, m2, k, vb, y, h1, h2, hm => by
    rw [lookupField] at h1
    by_cases hk : k1 = k
    · rw [eraseField, if_pos hk] at hm
      refine ⟨.cons k1 v y,
        mergeFields_cons_none_mk (by rw [hk]; exact h2) hm, ?_⟩
      rw [eraseField, if_pos hk]
    · rw [if_neg hk] at h1
      rw [eraseField, if_neg hk] at hm
      have hkk1 : k ≠ k1 := fun he => hk he.symm
      cases hlk : lookupField m2 k1 with
      | none =>
        obtain ⟨y1, hy1, hy⟩ := mergeFields_cons_none_ok hlk hm
        subst hy
        obtain ⟨r1, hr1, her⟩ := merge_erase_left_exists t m2 k vb y1 h1 h2 hy1
        refine ⟨.cons k1 v r1, mergeFields_cons_none_mk hlk hr1, ?_⟩
        rw [eraseField, if_neg hk, her]
      | some v2 =>
        obtain ⟨mv, y1, hmv, hy1, hy⟩ := mergeFields_cons_some_ok hlk hm
        subst hy
        obtain ⟨rest, hrest, her⟩ :=
          merge_erase_left_exists t (eraseField m2 k1) k vb y1 h1
            (by rw [lookupField_eraseField_ne m2 k k1 hkk1]; exact h2) hy1
        refine ⟨.cons k1 mv rest, mergeFields_cons_some_mk hlk hmv hrest, ?_⟩
        rw [eraseField, if_neg hk, her]

theorem merge_erase_both :
    ∀ (m1 m2 : Fields) (k : String) (vb vc : Value) (r : Fields),
      lookupField m1 k = some vb → lookupField m2 k = some vc →
      mergeFields m1 m2 = .ok r →
      mergeFields (eraseField m1 k) (eraseField m2 k) = .ok (eraseField r k)
  | .nil, _, k, vb, _, _, h1, _, _ => by
    rw [lookupField] at h1
    exact absurd h1 (by simp)
  | .cons k1 v t, m2, k, vb, vc, r, h1, h2, hm => by
    rw [lookupField] at h1
    by_cases hk : k1 = k
    · obtain ⟨mv, rest, hmv, hrest, hr⟩ := mergeFields_cons_some_ok
        (by rw [hk]; exact h2) hm
      subst hr
      rw [eraseField, if_pos hk, eraseField, if_pos hk]
      rw [hk] at hrest
      exact hrest
    · rw [if_neg hk] at h1
      have hkk1 : k ≠ k1 := fun he => hk he.symm
      cases hlk : lookupField m2 k1 with
      | none =>
        obtain ⟨r1, hr1, hr⟩ := mergeFields_cons_none_ok hlk hm
        subst hr
        rw [eraseField, if_neg hk, eraseField, if_neg hk]
        refine mergeFields_cons_none_mk ?_
          (merge_erase_both t m2 k vb vc r1 h1 h2 hr1)
        rw [lookupField_eraseField_ne m2 k1 k hk]
        exact hlk
      | some v2 =>
        obtain ⟨mv, rest, hmv, hrest, hr⟩ := mergeFields_cons_some_ok hlk hm
        subst hr
        rw [eraseField, if_neg hk, eraseField, if_neg hk]
        refine mergeFields_cons_some_mk ?_ hmv ?_
        · rw [lookupField_eraseField_ne m2 k1 k hk]
          exact hlk
        · rw [eraseField_comm m2 k k1 hkk1]
          exact merge_erase_both t (eraseField m2 k1) k vb vc rest h1
            (by rw [lookupField_eraseField_ne m2 k k1 hkk1]; exact h2) hrest

theorem merge_erase_both_exists :
    ∀ (m1 m2 : Fields) (k : String) (vb vc w : Value) (y : Fields),
      lookupField m1 k = some vb → lookupField m2 k = some vc →
      mergeValue vb vc = .ok w →
      mergeFields (eraseField m1 k) (eraseField m2 k) = .ok y →
      ∃ r, mergeFields m1 m2 = .ok r ∧ eraseField r k = y
        ∧ lookupField r k = some w
  | .nil, _, k, vb, _, _, _, h1, _, _, _ => by
    rw [lookupField] at h1
    exact absurd h1 (by simp)
  | .cons k1 v t, m2, k, vb, vc, w, y, h1, h2, hw, hm => by
    rw [lookupField] at h1
    by_cases hk : k1 = k
    · rw [if_pos hk] at h1
      rw [Option.some.injEq] at h1
      rw [eraseField, if_pos hk] at hm
      refine ⟨.cons k1 w y,
        mergeFields_cons_some_mk (by rw [hk]; exact h2)
          (by rw [h1]; exact hw) (by rw [hk]; exact hm), ?_, ?_⟩
      · rw [eraseField, if_pos hk]
      · rw [lookupField, if_pos hk]
    · rw [if_neg hk] at h1
      rw [eraseField, if_neg hk] at hm
      have hkk1 : k ≠ k1 := fun he => hk he.symm
      cases hlk : lookupField m2 k1 with
      | none =>
        obtain ⟨y1, hy1, hy⟩ := mergeFields_cons_none_ok
          (by rw [lookupField_eraseField_ne m2 k1 k hk]; exact hlk) hm
        subst hy
        obtain ⟨r1, hr1, her, hlr⟩ :=
          merge_erase_both_exists t m2 k vb vc w y1 h1 h2 hw hy1
        refine ⟨.cons k1 v r1, mergeFields_cons_none_mk hlk hr1, ?_, ?_⟩
        · rw [eraseField, if_neg hk, her]
        · rw [lookupField, if_neg hk]
          exact hlr
      | some v2 =>
        obtain ⟨mv, y1, hmv, hy1, hy⟩ := mergeFields_cons_some_ok
          (by rw [lookupField_eraseField_ne m2 k1 k hk]; exact hlk) hm
        subst hy
        rw [eraseField_comm m2 k k1 hkk1] at hy1
        obtain ⟨rest, hrest, her, hlr⟩ :=
          merge_erase_both_exists t (eraseField m2 k1) k vb vc w y1 h1
            (by rw [lookupField_eraseField_ne m2 k k1 hkk1]; exact h2)
            hw hy1
        refine ⟨.cons k1 mv rest, mergeFields_cons_some_mk hlk hmv hrest,
          ?_, ?_⟩
        · rw [eraseField, if_neg hk, her]
        · rw [lookupField, if_neg hk]
          exact hlr

theorem exc_ok_ne_err {E A : Type} {e : E} {a : A}
    (h : (Except.ok a : Except E A) = .error e) : False :=
  Except.noConfusion h

mutual

theorem mergeValue_err :
    ∀ (a b : Value) (e : MergeErr), mergeValue a b = .error e →
      e = .incompatible
  | .str _, .str _, _, h => (exc_ok_ne_err h).elim
  | .str _, .int _, _, h => (Except.error.inj h).symm
  | .str _, .map _, _, h => (Except.error.inj h).symm
  | .int _, .str _, _, h => (Except.error.inj h).symm
  | .int _, .int _, _, h => (Except.error.inj h).symm
  | .int _, .map _, _, h => (Except.error.inj h).symm
  | .map _, .str _, _, h => (Except.error.inj h).symm
  | .map _, .int _, _, h => (Except.error.inj h).symm
  | .map A, .map B, e, h => by
    rw [mergeValue] at h
    cases hm : mergeFields A B with
    | ok X => rw [hm, exc_map_ok] at h; exact (exc_ok_ne_err h).elim
    | error e2 =>
      rw [hm, exc_map_err] at h
      rw [← Except.error.inj h]
      exact mergeFields_err A B e2 hm

theorem mergeFields_err :
    ∀ (m1 m2 : Fields) (e : MergeErr), mergeFields m1 m2 = .error e →
      e = .incompatible
  | .nil, _, _, h => (exc_ok_ne_err h).elim
  | .cons k v t, m2, e, h => by
    cases hlk : lookupField m2 k with
    | none =>
      simp only [mergeFields, hlk] at h
      cases hm : mergeFields t m2 with
      | ok X => rw [hm, exc_map_ok] at h; exact (exc_ok_ne_err h).elim
      | error e2 =>
        rw [hm, exc_map_err] at h
        rw [← Except.error.inj h]
        exact mergeFields_err t m2 e2 hm
    | some v2 =>
      simp only [mergeFields, hlk] at h
      cases hmv : mergeValue v v2 with
      | ok mv =>
        rw [hmv, exc_bind_ok] at h
        cases hrest : mergeFields t (eraseField m2 k) with
        | ok rest => rw [hrest, exc_bind_ok] at h; exact (exc_ok_ne_err h).elim
        | error e2 =>
          rw [hrest, exc_bind_err] at h
          rw [← Except.error.inj h]
          exact mergeFields_err t (eraseField m2 k) e2 hrest
      | error e2 =>
        rw [hmv, exc_bind_err] at h
        rw [← Except.error.inj h]
        exact mergeValue_err v v2 e2 hmv

end

theorem except_eq_of_ok_iff {E A : Type} (X Y : Except E A)
    (h : ∀ r, X = .ok r ↔ Y = .ok r)
    (herr : ∀ e e2, X = .error e → Y = .error e2 → e = e2) : X = Y := by
  cases X with
  | ok r => exact ((h r).mp rfl).symm
  | error e =>
    cases Y with
    | ok r => exact absurd ((h r).mpr rfl) (by simp)
    | error e2 => rw [herr e e2 rfl rfl]

mutual

theorem mergeValue_assoc_fwd (a b c : Value) (r : Value)
    (h : ((mergeValue a b) >>= fun x => mergeValue x c) = .ok r) :
    ((mergeValue b c) >>= fun y => mergeValue a y) = .ok r := by
  rw [bind_ok_iff] at h
  obtain ⟨x, hab, hxc⟩ := h
  rcases mergeValue_ok_shape hab with ⟨sa, sb, ha, hb, hx⟩
    | ⟨A, B, X, ha, hb, hx, hAB⟩
  · subst ha hb hx
    rcases mergeValue_ok_shape hxc with ⟨s1, s2, hx2, hc, hr⟩
      | ⟨A2, C, X2, hx2, _, _, _⟩
    · have hs1 : sa ++ sb = s1 := Value.str.inj hx2
      subst hs1 hc hr
      rw [mergeValue, exc_bind_ok, mergeValue, String.append_assoc]
    · exact Value.noConfusion hx2
  · subst ha hb hx
    rcases mergeValue_ok_shape hxc with ⟨s1, s2, hx2, _, _⟩
      | ⟨A2, C, R, hx2, hc, hr, hXC⟩
    · exact Value.noConfusion hx2
    · have hA2 : X = A2 := Value.map.inj hx2
      subst hA2 hc hr
      have hchain : ((mergeFields A B) >>= fun x => mergeFields x C)
          = .ok R := by
        rw [hAB, exc_bind_ok]
        exact hXC
      have h2 := mergeFields_assoc_fwd A B C R hchain
      rw [bind_ok_iff] at h2
      obtain ⟨Y, hBC, hAY⟩ := h2
      show ((mergeFields B C).map Value.map >>= fun y => mergeValue (.map A) y)
        = _
      rw [hBC, exc_map_ok, exc_bind_ok, mergeValue, hAY, exc_map_ok]
termination_by sizeOf a

theorem mergeFields_assoc_fwd (fa fb fc : Fields) (r : Fields)
    (h : ((mergeFields fa fb) >>= fun x => mergeFields x fc) = .ok r) :
    ((mergeFields fb fc) >>= fun y => mergeFields fa y) = .ok r := by
  cases fa with
  | nil =>
    rw [mergeFields_nil_left, exc_bind_ok] at h
    rw [h, exc_bind_ok, mergeFields_nil_left]
  | cons k v t =>
    rw [bind_ok_iff] at h
    obtain ⟨ab, hab, habc⟩ := h
    cases hfb : lookupField fb k with
    | none =>
      obtain ⟨r1, hr1, hab2⟩ := mergeFields_cons_none_ok hfb hab
      subst hab2
      cases hfc : lookupField fc k with
      | none =>
        obtain ⟨r2, hr2, habc2⟩ := mergeFields_cons_none_ok hfc habc
        subst habc2
        have hchain : ((mergeFields t fb) >>= fun x => mergeFields x fc)
            = .ok r2 := by
          rw [hr1, exc_bind_ok]
          exact hr2
        have h2 := mergeFields_assoc_fwd t fb fc r2 hchain
        rw [bind_ok_iff] at h2
        obtain ⟨Y, hBC, hTY⟩ := h2
        rw [hBC, exc_bind_ok]
        refine mergeFields_cons_none_mk ?_ hTY
        rw [lookup_merge_none fb fc k Y hfb hBC]
        exact hfc
      | some vc =>
        obtain ⟨mv, rest, hmv, hrest, habc2⟩ :=
          mergeFields_cons_some_ok hfc habc
        subst habc2
        have hchain : ((mergeFields t fb) >>= fun x =>
            mergeFields x (eraseField fc k)) = .ok rest := by
          rw [hr1, exc_bind_ok]
          exact hrest
        have h2 := mergeFields_assoc_fwd t fb (eraseField fc k) rest hchain
        rw [bind_ok_iff] at h2
        obtain ⟨Y, hBEC, hTY⟩ := h2
        obtain ⟨bc, hbc, hebc, hlbc⟩ :=
          merge_erase_right_exists fb fc k Y hfb hBEC
        rw [hbc, exc_bind_ok]
        refine mergeFields_cons_some_mk (by rw [hlbc]; exact hfc) hmv ?_
        rw [hebc]
        exact hTY
    | some vb =>
      obtain ⟨mv, r1, hmv, hr1, hab2⟩ := mergeFields_cons_some_ok hfb hab
      subst hab2
      cases hfc : lookupField fc k with
      | none =>
        obtain ⟨r2, hr2, habc2⟩ := mergeFields_cons_none_ok hfc habc
        subst habc2
        have hchain : ((mergeFields t (eraseField fb k)) >>= fun x =>
            mergeFields x fc) = .ok r2 := by
          rw [hr1, exc_bind_ok]
          exact hr2
        have h2 := mergeFields_assoc_fwd t (eraseField fb k) fc r2 hchain
        rw [bind_ok_iff] at h2
        obtain ⟨Y, hEBC, hTY⟩ := h2
        obtain ⟨bc, hbc, hebc⟩ :=
          merge_erase_left_exists fb fc k vb Y hfb hfc hEBC
        rw [hbc, exc_bind_ok]
        refine mergeFields_cons_some_mk
          (lookup_merge_some_none fb fc k vb bc hfb hfc hbc) hmv ?_
        rw [hebc]
        exact hTY
      | some vc =>
        obtain ⟨mv2, rest, hmv2, hrest, habc2⟩ :=
          mergeFields_cons_some_ok hfc habc
        subst habc2
        have hvchain : ((mergeValue v vb) >>= fun x => mergeValue x vc)
            = .ok mv2 := by
          rw [hmv, exc_bind_ok]
          exact hmv2
        have hv2 := mergeValue_assoc_fwd v vb vc mv2 hvchain
        rw [bind_ok_iff] at hv2
        obtain ⟨w, hw, hvw⟩ := hv2
        have hchain : ((mergeFields t (eraseField fb k)) >>= fun x =>
            mergeFields x (eraseField fc k)) = .ok rest := by
          rw [hr1, exc_bind_ok]
          exact hrest
        have h2 := mergeFields_assoc_fwd t (eraseField fb k)
          (eraseField fc k) rest hchain
        rw [bind_ok_iff] at h2
        obtain ⟨Z, hZ, hTZ⟩ := h2
        obtain ⟨bc, hbc, hebc, hlbc⟩ :=
          merge_erase_both_exists fb fc k vb vc w Z hfb hfc hw hZ
        rw [hbc, exc_bind_ok]
        refine mergeFields_cons_some_mk hlbc hvw ?_
        rw [hebc]
        exact hTZ
termination_by sizeOf fa

end

mutual

theorem mergeValue_assoc_bwd (a b c : Value) (r : Value)
    (h : ((mergeValue b c) >>= fun y => mergeValue a y) = .ok r) :
    ((mergeValue a b) >>= fun x => mergeValue x c) = .ok r := by
  rw [bind_ok_iff] at h
  obtain ⟨y, hbc, hay⟩ := h
  rcases mergeValue_ok_shape hbc with ⟨sb, sc, hb, hc, hy⟩
    | ⟨B, C, Y, hb, hc, hy, hBC⟩
  · subst hb hc hy
    rcases mergeValue_ok_shape hay with ⟨s1, s2, ha, hy2, hr⟩
      | ⟨A, B2, X2, _, hy2, _, _⟩
    · have hs2 : sb ++ sc = s2 := Value.str.inj hy2
      subst hs2 ha hr
      rw [mergeValue, exc_bind_ok, mergeValue, String.append_assoc]
    · exact Value.noConfusion hy2
  · subst hb hc hy
    rcases mergeValue_ok_shape hay with ⟨s1, s2, _, hy2, _⟩
      | ⟨A, Y2, R, ha, hy2, hr, hAY⟩
    · exact Value.noConfusion hy2
    · have hY2 : Y = Y2 := Value.map.inj hy2
      subst hY2 ha hr
      have hchain : ((mergeFields B C) >>= fun y => mergeFields A y)
          = .ok R := by
        rw [hBC, exc_bind_ok]
        exact hAY
      have h2 := mergeFields_assoc_bwd A B C R hchain
      rw [bind_ok_iff] at h2
      obtain ⟨X, hAB, hXC⟩ := h2
      show ((mergeFields A B).map Value.map >>= fun x => mergeValue x (.map C))
        = _
      rw [hAB, exc_map_ok, exc_bind_ok, mergeValue, hXC, exc_map_ok]
termination_by sizeOf a

theorem mergeFields_assoc_bwd (fa fb fc : Fields) (r : Fields)
    (h : ((mergeFields fb fc) >>= fun y => mergeFields fa y) = .ok r) :
    ((mergeFields fa fb) >>= fun x => mergeFields x fc) = .ok r := by
  cases fa with
  | nil =>
    rw [bind_ok_iff] at h
    obtain ⟨bc, hbc, hnil⟩ := h
    rw [mergeFields_nil_left, Except.ok.injEq] at hnil
    subst hnil
    rw [mergeFields_nil_left, exc_bind_ok]
    exact hbc
  | cons k v t =>
    rw [bind_ok_iff] at h
    obtain ⟨bc, hbc, habc⟩ := h
    cases hfb : lookupField fb k with
    | none =>
      cases hfc : lookupField fc k with
      | none =>
        have hlbc : lookupField bc k = none := by
          rw [lookup_merge_none fb fc k bc hfb hbc]
          exact hfc
        obtain ⟨r2, hr2, hrr⟩ := mergeFields_cons_none_ok hlbc habc
        subst hrr
        have hchain : ((mergeFields fb fc) >>= fun y => mergeFields t y)
            = .ok r2 := by
          rw [hbc, exc_bind_ok]
          exact hr2
        have h2 := mergeFields_assoc_bwd t fb fc r2 hchain
        rw [bind_ok_iff] at h2
        obtain ⟨r1, hr1, hr1c⟩ := h2
        rw [mergeFields_cons_none_mk hfb hr1, exc_bind_ok]
        exact mergeFields_cons_none_mk hfc hr1c
      | some vc =>
        have hlbc : lookupField bc k = some vc := by
          rw [lookup_merge_none fb fc k bc hfb hbc]
          exact hfc
        obtain ⟨mv, rest, hmv, hrest, hrr⟩ :=
          mergeFields_cons_some_ok hlbc habc
        subst hrr
        have her := merge_erase_right fb fc k bc hfb hbc
        have hchain : ((mergeFields fb (eraseField fc k)) >>= fun y =>
            mergeFields t y) = .ok rest := by
          rw [her, exc_bind_ok]
          exact hrest
        have h2 := mergeFields_assoc_bwd t fb (eraseField fc k) rest hchain
        rw [bind_ok_iff] at h2
        obtain ⟨r1, hr1, hr1e⟩ := h2
        rw [mergeFields_cons_none_mk hfb hr1, exc_bind_ok]
        exact mergeFields_cons_some_mk hfc hmv hr1e
    | some vb =>
      cases hfc : lookupField fc k with
      | none =>
        have hlbc : lookupField bc k = some vb :=
          lookup_merge_some_none fb fc k vb bc hfb hfc hbc
        obtain ⟨mv, rest, hmv, hrest, hrr⟩ :=
          mergeFields_cons_some_ok hlbc habc
        subst hrr
        have her := merge_erase_left fb fc k vb bc hfb hfc hbc
        have hchain : ((mergeFields (eraseField fb k) fc) >>= fun y =>
            mergeFields t y) = .ok rest := by
          rw [her, exc_bind_ok]
          exact hrest
        have h2 := mergeFields_assoc_bwd t (eraseField fb k) fc rest hchain
        rw [bind_ok_iff] at h2
        obtain ⟨r1, hr1, hr1c⟩ := h2
        rw [mergeFields_cons_some_mk hfb hmv hr1, exc_bind_ok]
        exact mergeFields_cons_none_mk hfc hr1c
      | some vc =>
        obtain ⟨w, hw, hlbc⟩ :=
          lookup_merge_some_some fb fc k vb vc bc hfb hfc hbc
        obtain ⟨mv2, rest, hmv2, hrest, hrr⟩ :=
          mergeFields_cons_some_ok hlbc habc
        subst hrr
        have hvchain : ((mergeValue vb vc) >>= fun y => mergeValue v y)
            = .ok mv2 := by
          rw [hw, exc_bind_ok]
          exact hmv2
        have hv2 := mergeValue_assoc_bwd v vb vc mv2 hvchain
        rw [bind_ok_iff] at hv2
        obtain ⟨mv1, hmv1, hmv1c⟩ := hv2
        have her := merge_erase_both fb fc k vb vc bc hfb hfc hbc
        have hchain : ((mergeFields (eraseField fb k) (eraseField fc k))
            >>= fun y => mergeFields t y) = .ok rest := by
          rw [her, exc_bind_ok]
          exact hrest
        have h2 := mergeFields_assoc_bwd t (eraseField fb k)
          (eraseField fc k) rest hchain
        rw [bind_ok_iff] at h2
        obtain ⟨r1, hr1, hr1e⟩ := h2
        rw [mergeFields_cons_some_mk hfb hmv1 hr1, exc_bind_ok]
        exact mergeFields_cons_some_mk hfc hmv1c hr1e
termination_by sizeOf fa

end

theorem chainL_err (fa fb fc : Fields) (e : MergeErr)
    (h : ((mergeFields fa fb) >>= fun x => mergeFields x fc) = .error e) :
    e = .incompatible := by
  cases hab : mergeFields fa fb with
  | ok F =>
    rw [hab, exc_bind_ok] at h
    exact mergeFields_err F fc e h
  | error e2 =>
    rw [hab, exc_bind_err] at h
    rw [← Except.error.inj h]
    exact mergeFields_err fa fb e2 hab

theorem chainR_err (fa fb fc : Fields) (e : MergeErr)
    (h : ((mergeFields fb fc) >>= fun y => mergeFields fa y) = .error e) :
    e = .incompatible := by
  cases hbc : mergeFields fb fc with
  | ok Y =>
    rw [hbc, exc_bind_ok] at h
    exact mergeFields_err fa Y e h
  | error e2 =>
    rw [hbc, exc_bind_err] at h
    rw [← Except.error.inj h]
    exact mergeFields_err fb fc e2 hbc

/-- Associativity of the structural field merge, as an equality of the two
ways of combining three ordered mappings. -/
theorem mergeFields_assoc (fa fb fc : Fields) :
    ((mergeFields fa fb) >>= fun x => mergeFields x fc)
      = ((mergeFields fb fc) >>= fun y => mergeFields fa y) := by
  refine except_eq_of_ok_iff _ _
    (fun r => ⟨mergeFields_assoc_fwd fa fb fc r,
      mergeFields_assoc_bwd fa fb fc r⟩) ?_
  intro e e2 hX hY
  rw [chainL_err fa fb fc e hX, chainR_err fa fb fc e2 hY]

theorem mergeMsg_ok_iff (a b : Message) (hrole : a.role = b.role)
    (M : Message) :
    mergeMsg a b = .ok M
      ↔ ∃ F, mergeFields a.additional_fields b.additional_fields = .ok F
          ∧ M = { content := a.content ++ b.content, role := a.role,
                  additional_fields := F,
                  identity := idOr a.identity b.identity } := by
  rw [mergeMsg, if_pos hrole, map_ok_iff]
  constructor <;> rintro ⟨F, h1, h2⟩ <;> exact ⟨F, h1, h2.symm⟩

theorem mergeMsg_ok_role (a b x : Message) (h : mergeMsg a b = .ok x) :
    x.role = a.role := by
  rw [mergeMsg] at h
  by_cases hr : a.role = b.role
  · rw [if_pos hr, map_ok_iff] at h
    obtain ⟨F, _, hx⟩ := h
    rw [← hx]
  · rw [if_neg hr] at h
    exact (exc_err_ne_ok (h.symm ▸ rfl : (Except.error MergeErr.roleConflict :
      Except MergeErr Message) = .ok x)).elim

theorem mergeMsg_err (a b : Message) (hrole : a.role = b.role)
    (e : MergeErr) (h : mergeMsg a b = .error e) : e = .incompatible := by
  rw [mergeMsg, if_pos hrole] at h
  cases hm : mergeFields a.additional_fields b.additional_fields with
  | ok F => rw [hm, exc_map_ok] at h; exact (exc_ok_ne_err h).elim
  | error e2 =>
    rw [hm, exc_map_err] at h
    rw [← Except.error.inj h]
    exact mergeFields_err _ _ e2 hm

theorem mergeMsg_assoc_fwd (a b c : Message) (hab : a.role = b.role)
    (hbc : b.role = c.role) (M : Message)
    (h : ((mergeMsg a b) >>= fun x => mergeMsg x c) = .ok M) :
    ((mergeMsg b c) >>= fun y => mergeMsg a y) = .ok M := by
  rw [bind_ok_iff] at h
  obtain ⟨x, hx, hxc⟩ := h
  rw [mergeMsg_ok_iff a b hab] at hx
  obtain ⟨F1, hF1, hxeq⟩ := hx
  subst hxeq
  rw [mergeMsg_ok_iff
      { content := a.content ++ b.content, role := a.role,
        additional_fields := F1, identity := idOr a.identity b.identity }
      c (hab.trans hbc)] at hxc
  obtain ⟨F2, hF2, hMeq⟩ := hxc
  subst hMeq
  have hchain : ((mergeFields a.additional_fields b.additional_fields)
      >>= fun x => mergeFields x c.additional_fields) = .ok F2 := by
    rw [hF1, exc_bind_ok]
    exact hF2
  have h2 := mergeFields_assoc_fwd _ _ _ F2 hchain
  rw [bind_ok_iff] at h2
  obtain ⟨Y, hBC, hAY⟩ := h2
  rw [bind_ok_iff]
  refine ⟨{ content := b.content ++ c.content, role := b.role,
            additional_fields := Y,
            identity := idOr b.identity c.identity }, ?_, ?_⟩
  · rw [mergeMsg_ok_iff b c hbc]
    exact ⟨Y, hBC, rfl⟩
  · rw [mergeMsg_ok_iff a
        { content := b.content ++ c.content, role := b.role,
          additional_fields := Y, identity := idOr b.identity c.identity }
        hab]
    refine ⟨F2, hAY, ?_⟩
    simp [Message.mk.injEq, String.append_assoc, idOr_assoc]

theorem mergeMsg_assoc_bwd (a b c : Message) (hab : a.role = b.role)
    (hbc : b.role = c.role) (M : Message)
    (h : ((mergeMsg b c) >>= fun y => mergeMsg a y) = .ok M) :
    ((mergeMsg a b) >>= fun x => mergeMsg x c) = .ok M := by
  rw [bind_ok_iff] at h
  obtain ⟨y, hy, hay⟩ := h
  rw [mergeMsg_ok_iff b c hbc] at hy
  obtain ⟨F1, hF1, hyeq⟩ := hy
  subst hyeq
  rw [mergeMsg_ok_iff a
      { content := b.content ++ c.content, role := b.role,
        additional_fields := F1, identity := idOr b.identity c.identity }
      hab] at hay
  obtain ⟨F2, hF2, hMeq⟩ := hay
  subst hMeq
  have hchain : ((mergeFields b.additional_fields c.additional_fields)
      >>= fun y => mergeFields a.additional_fields y) = .ok F2 := by
    rw [hF1, exc_bind_ok]
    exact hF2
  have h2 := mergeFields_assoc_bwd _ _ _ F2 hchain
  rw [bind_ok_iff] at h2
  obtain ⟨X, hAB, hXC⟩ := h2
  rw [bind_ok_iff]
  refine ⟨{ content := a.content ++ b.content, role := a.role,
            additional_fields := X,
            identity := idOr a.identity b.identity }, ?_, ?_⟩
  · rw [mergeMsg_ok_iff a b hab]
    exact ⟨X, hAB, rfl⟩
  · rw [mergeMsg_ok_iff
        { content := a.content ++ b.content, role := a.role,
          additional_fields := X, identity := idOr a.identity b.identity }
        c (hab.trans hbc)]
    refine ⟨F2, hXC, ?_⟩
    simp [Message.mk.injEq, String.append_assoc, idOr_assoc]

theorem mergeMsg_chainL_err (a b c : Message) (hab : a.role = b.role)
    (hbc : b.role = c.role) (e : MergeErr)
    (h : ((mergeMsg a b) >>= fun x => mergeMsg x c) = .error e) :
    e = .incompatible := by
  cases hx : mergeMsg a b with
  | ok x =>
    rw [hx, exc_bind_ok] at h
    refine mergeMsg_err x c ?_ e h
    rw [mergeMsg_ok_role a b x hx, hab]
    exact hbc
  | error e0 =>
    rw [hx, exc_bind_err] at h
    rw [← Except.error.inj h]
    exact mergeMsg_err a b hab e0 hx

theorem mergeMsg_chainR_err (a b c : Message) (hab : a.role = b.role)
    (hbc : b.role = c.role) (e : MergeErr)
    (h : ((mergeMsg b c) >>= fun y => mergeMsg a y) = .error e) :
    e = .incompatible := by
  cases hy : mergeMsg b c with
  | ok y =>
    rw [hy, exc_bind_ok] at h
    refine mergeMsg_err a y ?_ e h
    rw [mergeMsg_ok_role b c y hy]
    exact hab
  | error e0 =>
    rw [hy, exc_bind_err] at h
    rw [← Except.error.inj h]
    exact mergeMsg_err b c hbc e0 hy

/-- Associativity of the Merger on whole fragments of one role. -/
theorem mergeMsg_assoc (a b c : Message) (hab : a.role = b.role)
    (hbc : b.role = c.role) :
    ((mergeMsg a b) >>= fun x => mergeMsg x c)
      = ((mergeMsg b c) >>= fun y => mergeMsg a y) := by
  refine except_eq_of_ok_iff _ _
    (fun M => ⟨mergeMsg_assoc_fwd a b c hab hbc M,
      mergeMsg_assoc_bwd a b c hab hbc M⟩) ?_
  intro e e2 hX hY
  rw [mergeMsg_chainL_err a b c hab hbc e hX,
    mergeMsg_chainR_err a b c hab hbc e2 hY]

theorem frag_role (pol : String → List String) (gid : Nat) (m : Message) :
    ∀ f ∈ fragmenter pol gid m, f.role = m.role := by
  intro f hf
  rw [fragmenter] at hf
  rcases List.mem_append.mp hf with h | h <;>
    · obtain ⟨x, _, hx⟩ := List.mem_map.mp h
      rw [← hx]

/-- C6 (merge associativity): for fragments `a`, `b`, `c` drawn in order
from one fragment sequence produced by the Fragmenter, merging `(a, b)` and
then merging the result with `c` gives the same outcome as merging `a` with
`merge(b, c)`. -/
theorem merge_assoc_fragments (pol : String → List String) (gid : Nat)
    (m : Message) (a b c : Message)
    (hsub : List.Sublist [a, b, c] (fragmenter pol gid m)) :
    ((mergeMsg a b) >>= fun x => mergeMsg x c)
      = ((mergeMsg b c) >>= fun y => mergeMsg a y) := by
  have hr : ∀ x ∈ ([a, b, c] : List Message), x.role = m.role :=
    fun x hx => frag_role pol gid m x (hsub.subset hx)
  refine mergeMsg_assoc a b c ?_ ?_
  · rw [hr a (by simp), hr b (by simp)]
  · rw [hr b (by simp), hr c (by simp)]

/-- Closed witness for merge associativity, at the three `arguments`
chunks of the scenario C fragment stream. -/
theorem merge_assoc_fragments_wit :
    ((mergeMsg fragC1 fragC2) >>= fun x => mergeMsg x fragC3)
      = ((mergeMsg fragC2 fragC3) >>= fun y => mergeMsg fragC1 y) :=
  merge_assoc_fragments splitCommas 0 exMsgC fragC1 fragC2 fragC3 (by decide)

/-! ### Identity stability. -/

theorem mergeMsg_ok_identity (a b c : Message) (h : mergeMsg a b = .ok c) :
    c.identity = idOr a.identity b.identity := by
  rw [mergeMsg] at h
  by_cases hr : a.role = b.role
  · rw [if_pos hr] at h
    cases hm : mergeFields a.additional_fields b.additional_fields with
    | ok F => rw [hm, exc_map_ok, Except.ok.injEq] at h; rw [← h]
    | error e => rw [hm, exc_map_err] at h; exact absurd h (by simp)
  · rw [if_neg hr] at h
    exact absurd h (by simp)

theorem fold_identity :
    ∀ (frags : List Message) (acc res : Message),
      List.foldlM mergeMsg acc frags = .ok res →
      res.identity
        = List.foldl idOr acc.identity (frags.map (fun f => f.identity)) := by
  intro frags
  induction frags with
  | nil =>
    intro acc res h
    rw [List.foldlM_nil] at h
    cases h
    rfl
  | cons f fs ih =>
    intro acc res h
    rw [List.foldlM_cons] at h
    cases hm : mergeMsg acc f with
    | ok acc2 =>
      rw [hm, exc_bind_ok] at h
      rw [List.map_cons, List.foldl_cons, ← mergeMsg_ok_identity acc f acc2 hm]
      exact ih acc2 res h
    | error e =>
      rw [hm, exc_bind_err] at h
      exact absurd h (by simp)

theorem foldl_idOr_all_some (gid : Nat) :
    ∀ (l : List (Option Nat)), (∀ x ∈ l, x = some gid) → l ≠ [] →
      List.foldl idOr none l = some gid := by
  intro l hall hne
  obtain ⟨x, rest, hx⟩ := List.exists_cons_of_ne_nil hne
  subst hx
  rw [List.foldl_cons, hall x (by simp), idOr]
  exact foldl_idOr_const gid rest (fun y hy => hall y (by simp [hy]))

/-- C2 (identity stability): every fragment the Fragmenter produces for one
Message carries the one identity token generated for the stream, and the
folded Message carries that same identity. -/
theorem frag_identity_stable (pol : String → List String) (gid : Nat)
    (m : Message) (res : Message)
    (hok : foldFrags (seedMsg m.role) (fragmenter pol gid m) = .ok res)
    (hne : fragmenter pol gid m ≠ []) :
    (∀ f ∈ fragmenter pol gid m, f.identity = some gid)
      ∧ res.identity = some gid := by
  have hids : ∀ f ∈ fragmenter pol gid m, f.identity = some gid := by
    intro f hf
    rw [fragmenter] at hf
    rcases List.mem_append.mp hf with h | h <;>
      · obtain ⟨x, _, hx⟩ := List.mem_map.mp h
        rw [← hx]
  refine ⟨hids, ?_⟩
  rw [foldFrags] at hok
  rw [fold_identity (fragmenter pol gid m) (seedMsg m.role) res hok]
  refine foldl_idOr_all_some gid _ ?_ ?_
  · intro x hx
    obtain ⟨f, hf, hfx⟩ := List.mem_map.mp hx
    rw [← hfx]
    exact hids f hf
  · simp [hne]

/-- Closed witness for identity stability, at the scenario A message with
identity token 5. -/
theorem frag_identity_stable_wit :
    foldFrags (seedMsg exMsgA.role) (fragmenter trivPolicy 5 exMsgA)
        = .ok resA5
      ∧ resA5.identity = some 5 :=
  ⟨by decide,
    (frag_identity_stable trivPolicy 5 exMsgA resA5 (by decide) (by decide)).2⟩

/-! ### Callback token delivery. -/

theorem runStream_eq :
    ∀ (frags : List Message) (stores : List (List String)),
      runStream frags stores
        = stores.map (fun st => st ++ frags.map (fun f => f.content)) := by
  intro frags
  induction frags with
  | nil =>
    intro stores
    rw [runStream, List.foldl_nil, List.map_nil]
    exact (List.map_id'' (fun st => by rw [List.append_nil]) stores).symm
  | cons f fs ih =>
    intro stores
    rw [runStream, List.foldl_cons, ← runStream, ih, notifyAll, List.map_map]
    refine List.map_congr_left (fun st _ => ?_)
    simp [List.append_assoc]

/-- C9 (token notifications): running a fragment stream against handler
stores that start empty delivers to every handler exactly the sequence of
fragment contents, one token notification per fragment, in emission
order. -/
theorem stream_callback_tokens (pol : String → List String) (gid : Nat)
    (m : Message) (stores : List (List String))
    (hempty : ∀ st ∈ stores, st = []) :
    ∀ st2 ∈ runStream (fragmenter pol gid m) stores,
      st2 = (fragmenter pol gid m).map (fun f => f.content) := by
  intro st2 hst2
  rw [runStream_eq] at hst2
  obtain ⟨st, hst, hx⟩ := List.mem_map.mp hst2
  rw [← hx, hempty st hst, List.nil_append]

/-- Closed witness for token delivery: one initially empty handler store
receives exactly the three scenario A tokens. -/
theorem stream_callback_tokens_wit :
    (fragmenter trivPolicy 0 exMsgA).map (fun f => f.content)
      = ["hello", " ", "goodbye"] :=
  (stream_callback_tokens trivPolicy 0 exMsgA [[]] (by decide)
    ["hello", " ", "goodbye"] (by decide)).symm

/-! ### Claims about the concrete scenarios (C3, C4, C5). -/

/-- C3: fragmenting the Message with content `"hello goodbye"` by
whitespace splitting yields exactly the fragment contents
`["hello", " ", "goodbye"]`, the separator space being its own fragment,
and folding these fragments reconstructs `"hello goodbye"` with one shared
identity. -/
theorem frag_scene_a :
    fragmenter trivPolicy 0 exMsgA =
      [{ content := "hello", role := .ai, additional_fields := .nil,
         identity := some 0 },
       { content := " ", role := .ai, additional_fields := .nil,
         identity := some 0 },
       { content := "goodbye", role := .ai, additional_fields := .nil,
         identity := some 0 }]
    ∧ foldFrags (seedMsg .ai) (fragmenter trivPolicy 0 exMsgA) =
        .ok { content := "hello goodbye", role := .ai,
              additional_fields := .nil, identity := some 0 } := by
  decide

/-- C5: the Message with empty content and the scalar fields
`{"foo": 42, "bar": 24}` fragments one-per-key in insertion order, and
folding the two fragments reconstructs the original fields. -/
theorem frag_scene_b :
    fragmenter trivPolicy 0 exMsgB =
      [{ content := "", role := .ai,
         additional_fields := .cons "foo" (.int 42) .nil,
         identity := some 0 },
       { content := "", role := .ai,
         additional_fields := .cons "bar" (.int 24) .nil,
         identity := some 0 }]
    ∧ foldFrags (seedMsg .ai) (fragmenter trivPolicy 0 exMsgB) =
        .ok { content := "", role := .ai,
              additional_fields :=
                .cons "foo" (.int 42) (.cons "bar" (.int 24) .nil),
              identity := some 0 } := by
  decide

/-- C4: the Message whose `additional_fields` hold the nested
`function_call` mapping fragments into a `name` fragment followed by three
comma-chunked `arguments` fragments, each wrapped in the same nested key
path, and folding all four fragments in emission order reconstructs the
exact original nested structure, including the exact `arguments` string. -/
theorem frag_scene_c :
    fragmenter splitCommas 0 exMsgC =
      [{ content := "", role := .ai,
         additional_fields := .cons "function_call"
           (.map (.cons "name" (.str "move_file") .nil)) .nil,
         identity := some 0 },
       { content := "", role := .ai,
         additional_fields := .cons "function_call"
           (.map (.cons "arguments"
             (.str "\x7b\n  \"source_path\": \"foo\"") .nil)) .nil,
         identity := some 0 },
       { content := "", role := .ai,
         additional_fields := .cons "function_call"
           (.map (.cons "arguments" (.str ",") .nil)) .nil,
         identity := some 0 },
       { content := "", role := .ai,
         additional_fields := .cons "function_call"
           (.map (.cons "arguments"
             (.str "\n  \"destination_path\": \"bar\"\n\x7d") .nil)) .nil,
         identity := some 0 }]
    ∧ foldFrags (seedMsg .ai) (fragmenter splitCommas 0 exMsgC) =
        .ok { content := "", role := .ai, additional_fields := exFieldsC,
              identity := some 0 } := by
  decide

/-! ### Loader construction and partial-result behavior (C7, C8). -/

/-- C7: constructing a MongodbLoader with a missing (empty) connection
string, database name or collection name fails fast with a `ValueError`
raised before any attribute assignment, so no partially constructed loader
value ever exists (the result is an error, never an `ok` loader). -/
theorem mongodb_init_missing_fails (cs dbn coll : String)
    (fc : Option BFields) (fn mn : Option (List String)) (inc : Bool)
    (h : cs = "" ∨ dbn = "" ∨ coll = "") :
    ∃ msg, MongodbLoader.init cs dbn coll fc fn mn inc
      = .error (.valueError msg) := by
  by_cases h1 : cs = ""
  · exact ⟨"connection_string must be provided.",
      by rw [MongodbLoader.init, if_pos h1]⟩
  · by_cases h2 : dbn = ""
    · exact ⟨"db_name must be provided.",
        by rw [MongodbLoader.init, if_neg h1, if_pos h2]⟩
    · have h3 : coll = "" := by tauto
      exact ⟨"collection_name must be provided.",
        by rw [MongodbLoader.init, if_neg h1, if_neg h2, if_pos h3]⟩

/-- Closed witness for fail-fast construction: an empty connection string
is rejected. -/
theorem mongodb_init_missing_fails_wit :
    ∃ msg, MongodbLoader.init "" "db" "col" none none none true
      = .error (.valueError msg) :=
  mongodb_init_missing_fails "" "db" "col" none none none true (Or.inl rfl)

theorem mapM_length_except {E A B : Type} :
    ∀ (l : List A) (f : A → Except E B) (r : List B),
      l.mapM f = .ok r → r.length = l.length := by
  intro l
  induction l with
  | nil =>
    intro f r h
    rw [List.mapM_nil] at h
    cases h
    rfl
  | cons a t ih =>
    intro f r h
    rw [List.mapM_cons] at h
    cases hfa : f a with
    | ok b =>
      rw [hfa, exc_bind_ok] at h
      cases hmt : t.mapM f with
      | ok bs =>
        rw [hmt, exc_bind_ok] at h
        cases h
        rw [List.length_cons, List.length_cons, ih f bs hmt]
      | error e => rw [hmt, exc_bind_err] at h; exact absurd h (by simp)
    | error e => rw [hfa, exc_bind_err] at h; exact absurd h (by simp)

/-- C8: when iteration over the document store yields fewer records than
the separately obtained count, `aload` still returns (it does not raise)
the list of Documents built from the records that were retrieved, and the
partial-result warning is flagged. -/
theorem mongodb_aload_warns (l : MongodbLoader) (db : DbResponse)
    (docs : List Document)
    (hmap : db.docs.mapM (mkDocument l) = .ok docs)
    (hlt : db.docs.length < db.count) :
    l.aload db = .ok (docs, true) ∧ docs.length = db.docs.length := by
  have hlen : docs.length = db.docs.length := mapM_length_except _ _ _ hmap
  refine ⟨?_, hlen⟩
  rw [MongodbLoader.aload, hmap, exc_bind_ok]
  have hne : docs.length ≠ db.count := by
    rw [hlen]
    exact Nat.ne_of_lt hlt
  simp [hne]

/-- Closed witness for the partial-result behavior: one record retrieved
against a count of two yields the one built document plus the warning
flag. -/
theorem mongodb_aload_warns_wit :
    exLoader.aload exDb = .ok ([exDoc], true)
      ∧ [exDoc].length = exDb.docs.length :=
  mongodb_aload_warns exLoader exDb [exDoc] (by decide) (by decide)

/-- C10: synchronous loading returns exactly the result of one complete
run of asynchronous loading on the same loader state and the same database
response; `asyncio.run` collapses to the identity on the finished
deterministic computation. -/
theorem mongodb_load_delegates_aload (l : MongodbLoader) (db : DbResponse) :
    l.load db = l.aload db := rfl
